import Mathlib

/-!
# Verification of the 2fa two-factor authentication agent

Shallow embedding of `main.go` of the 2fa keychain program.  Byte strings are
modelled as `List Nat` (each element a byte value), machine words as `Nat`
with explicit reduction modulo `2^32` / `2^64` where the Go code uses
`uint32` / `uint64`, and fallible operations return `Option`.
-/

namespace TwoFA

/-- Truncation to a 32-bit word (`uint32` arithmetic in Go). -/
def w32 (n : Nat) : Nat := n % 4294967296

/-- Left rotation of a 32-bit word by `s` bits. -/
def rotl (s n : Nat) : Nat := w32 ((n <<< s) ||| (n >>> (32 - s)))

/-- Big-endian 8-byte encoding of a `uint64` value, as written by
`binary.Write(h, binary.BigEndian, counter)`.  Bits at or above `2^64` are
dropped by the byte masks, so this is the encoding of `n % 2^64`. -/
def be64 (n : Nat) : List Nat :=
  [(n >>> 56) % 256, (n >>> 48) % 256, (n >>> 40) % 256, (n >>> 32) % 256,
   (n >>> 24) % 256, (n >>> 16) % 256, (n >>> 8) % 256, n % 256]

/-- Big-endian 4-byte encoding of a 32-bit word. -/
def be32 (n : Nat) : List Nat :=
  [(n >>> 24) % 256, (n >>> 16) % 256, (n >>> 8) % 256, n % 256]

/-- Reading of `binary.BigEndian.Uint32` of the four bytes of `l` starting at index `i`. -/
def beWord (l : List Nat) (i : Nat) : Nat :=
  (l.getD i 0 <<< 24) ||| (l.getD (i + 1) 0 <<< 16) ||| (l.getD (i + 2) 0 <<< 8) |||
    l.getD (i + 3) 0

/-- SHA-1 message padding: append `0x80`, zero bytes up to 56 mod 64, then the
message bit length as a big-endian 64-bit value. -/
def sha1Pad (msg : List Nat) : List Nat :=
  msg ++ 128 :: List.replicate ((64 - ((msg.length + 9) % 64)) % 64) 0 ++ be64 (8 * msg.length)

/-- Split a byte list into 64-byte blocks.  The first argument is fuel; it is
called with the length of the list, which suffices since every step consumes
64 bytes. -/
def chunks64 : Nat → List Nat → List (List Nat)
  | 0, _ => []
  | fuel + 1, l => if l.length = 0 then [] else l.take 64 :: chunks64 fuel (l.drop 64)

/-- The sixteen big-endian 32-bit words of a 64-byte block. -/
def blockWords (block : List Nat) : List Nat :=
  (List.range 16).map (fun i => beWord block (4 * i))

/-- SHA-1 message-schedule extension: the accumulator holds the words produced
so far in reverse order; each step pushes
`rotl 1 (w[t-3] xor w[t-8] xor w[t-14] xor w[t-16])`. -/
def sha1Extend : Nat → List Nat → List Nat
  | 0, ws => ws
  | k + 1, ws =>
      sha1Extend k (rotl 1 ((ws.getD 2 0) ^^^ (ws.getD 7 0) ^^^ (ws.getD 13 0) ^^^ (ws.getD 15 0)) :: ws)

/-- The eighty schedule words of a block, in order. -/
def sha1Schedule (block : List Nat) : List Nat :=
  (sha1Extend 64 (blockWords block).reverse).reverse

/-- The SHA-1 round function for round `i`. -/
def sha1F (i b c d : Nat) : Nat :=
  if i < 20 then (b &&& c) ||| ((b ^^^ 4294967295) &&& d)
  else if i < 40 then b ^^^ c ^^^ d
  else if i < 60 then (b &&& c) ||| (b &&& d) ||| (c &&& d)
  else b ^^^ c ^^^ d

/-- The SHA-1 round constant for round `i`. -/
def sha1K (i : Nat) : Nat :=
  if i < 20 then 1518500249
  else if i < 40 then 1859775393
  else if i < 60 then 2400959708
  else 3395469782

/-- The eighty SHA-1 rounds over the schedule words. -/
def sha1Rounds : Nat → (Nat × Nat × Nat × Nat × Nat) → List Nat → Nat × Nat × Nat × Nat × Nat
  | _, st, [] => st
  | i, (a, b, c, d, e), w :: ws =>
      sha1Rounds (i + 1) (w32 (rotl 5 a + sha1F i b c d + e + sha1K i + w), a, rotl 30 b, c, d) ws

/-- Compression of one 64-byte block into the running hash state. -/
def sha1Block (h : Nat × Nat × Nat × Nat × Nat) (block : List Nat) : Nat × Nat × Nat × Nat × Nat :=
  match h with
  | (h0, h1, h2, h3, h4) =>
    match sha1Rounds 0 (h0, h1, h2, h3, h4) (sha1Schedule block) with
    | (a, b, c, d, e) => (w32 (h0 + a), w32 (h1 + b), w32 (h2 + c), w32 (h3 + d), w32 (h4 + e))

/-- SHA-1 of a byte string, producing the 20-byte digest. -/
def sha1 (msg : List Nat) : List Nat :=
  match (chunks64 (sha1Pad msg).length (sha1Pad msg)).foldl sha1Block
      (1732584193, 4023233417, 2562383102, 271733878, 3285377520) with
  | (h0, h1, h2, h3, h4) => be32 h0 ++ be32 h1 ++ be32 h2 ++ be32 h3 ++ be32 h4

/-- HMAC-SHA1 with block size 64, as produced by
`hmac.New(sha1.New, key)` followed by writing `msg` (Go `crypto/hmac`):
a key longer than the block size is first hashed, the key is zero-padded to
64 bytes, and the result is `H((k xor opad) ++ H((k xor ipad) ++ msg))`. -/
def hmacSha1 (key msg : List Nat) : List Nat :=
  sha1 (((if 64 < key.length then sha1 key else key) ++
          List.replicate (64 - (if 64 < key.length then sha1 key else key).length) 0).map
        (fun b => b ^^^ 92) ++
    sha1 (((if 64 < key.length then sha1 key else key) ++
            List.replicate (64 - (if 64 < key.length then sha1 key else key).length) 0).map
          (fun b => b ^^^ 54) ++ msg))

/-- The loop `d := uint32(1); for i := 0; i < digits && i < 8; i++ { d *= 10 }`
from `hotp`.  The `Nat` fuel argument enforces the `i < 8` bound (it starts at
8 and counts down as `i` counts up); the `i < digits` test is taken on the Go
`int` value. -/
def hotpLoopAux (digits : Int) : Nat → Nat → Nat → Nat
  | 0, _, d => d
  | fuel + 1, i, d => if (i : Int) < digits then hotpLoopAux digits fuel (i + 1) (d * 10) else d

/-- The power-of-ten modulus computed by `hotp`'s loop. -/
def hotpD (digits : Int) : Nat := hotpLoopAux digits 8 0 1

/-- Dynamic truncation of `hotp`: HMAC-SHA1 of the big-endian counter, the
low four bits of the final digest byte select a four-byte window, read
big-endian and masked with `0x7FFFFFFF`. -/
def hotpTrunc (key : List Nat) (counter : Nat) : Nat :=
  beWord (hmacSha1 key (be64 counter))
      ((hmacSha1 key (be64 counter)).getD ((hmacSha1 key (be64 counter)).length - 1) 0 &&& 15) &&&
    2147483647

/-- The function `hotp(key []byte, counter uint64, digits int) int` from `main.go`:
dynamic truncation reduced modulo the power of ten from the digit loop. -/
def hotp (key : List Nat) (counter : Nat) (digits : Int) : Nat :=
  hotpTrunc key counter % hotpD digits

/-- The function `totp(key []byte, t time.Time, digits int) int`: the code is
`hotp(key, uint64(t.UnixNano())/30e9, digits)`.  The timestamp is modelled as
its exact count `nowNanos` of nanoseconds since the Unix epoch; Go's
`t.UnixNano()` truncates that integer to `int64` (two's-complement wrap) and
the `uint64` conversion reinterprets the bits, so the composite is exactly
reduction modulo `2^64`. -/
def totp (key : List Nat) (nowNanos : Int) (digits : Int) : Nat :=
  hotp key ((nowNanos % 18446744073709551616).toNat / 30000000000) digits

/-- The `Char.toNat` image of a string, i.e. the bytes of an ASCII string. -/
def asciiBytes (s : String) : List Nat := s.data.map Char.toNat

/-- Go `strings.ToUpper` on the ASCII range: bytes `a`..`z` are mapped to
`A`..`Z`, everything else is unchanged.  (The Go function is Unicode-aware,
but every byte the base32 alphabet can accept is ASCII.) -/
def toUpperAscii (s : List Nat) : List Nat :=
  s.map (fun c => if 97 ≤ c ∧ c ≤ 122 then c - 32 else c)

/-- The decode map of `base32.StdEncoding` (alphabet
`ABCDEFGHIJKLMNOPQRSTUVWXYZ234567`): `A`..`Z` are values 0..25 and
`2`..`7` are values 26..31; every other byte is invalid. -/
def b32Val (c : Nat) : Option Nat :=
  if 65 ≤ c ∧ c ≤ 90 then some (c - 65)
  else if 50 ≤ c ∧ c ≤ 55 then some (c - 50 + 26)
  else none

/-- One 8-character quantum of Go's `base32.Encoding.decode` loop.  `j` counts
the characters already taken in this quantum and the fuel starts at `8 - j`.
Returns the eight 5-bit values (zero-filled past `dlen`), the number `dlen` of
data characters, the unconsumed input, and the end-of-data flag.  `none`
models a `CorruptInputError`: input exhausted mid-quantum (missing padding),
an invalid character, a `=` in a position other than `j ∈ {2,4,5,7}` of a
final quantum, or insufficient / interrupted trailing padding. -/
def b32QuantumAux : Nat → Nat → List Nat → List Nat → Option (List Nat × Nat × List Nat × Bool)
  | 0, _, acc, src => some (acc.reverse, 8, src, false)
  | _ + 1, _, _, [] => none
  | fuel + 1, j, acc, c :: src =>
    if c = 61 ∧ 2 ≤ j ∧ src.length < 8 then
      if src.length + j < 7 then none
      else if (src.take (7 - j)).all (fun x => x == 61) then
        if j = 1 ∨ j = 3 ∨ j = 6 then none
        else some (acc.reverse ++ List.replicate (8 - j) 0, j, src, true)
      else none
    else
      match b32Val c with
      | none => none
      | some v => b32QuantumAux fuel (j + 1) (v :: acc) src

/-- Reassembly of the up-to-five output bytes of a quantum from its eight
5-bit values, following the `switch dlen` with fallthroughs in Go's decoder.
`dlen` is always one of 2, 4, 5, 7, 8. -/
def b32Output (dbuf : List Nat) (dlen : Nat) : List Nat :=
  if dlen = 8 then
    [((dbuf.getD 0 0 <<< 3) ||| (dbuf.getD 1 0 >>> 2)) % 256,
     ((dbuf.getD 1 0 <<< 6) ||| (dbuf.getD 2 0 <<< 1) ||| (dbuf.getD 3 0 >>> 4)) % 256,
     ((dbuf.getD 3 0 <<< 4) ||| (dbuf.getD 4 0 >>> 1)) % 256,
     ((dbuf.getD 4 0 <<< 7) ||| (dbuf.getD 5 0 <<< 2) ||| (dbuf.getD 6 0 >>> 3)) % 256,
     ((dbuf.getD 6 0 <<< 5) ||| dbuf.getD 7 0) % 256]
  else if dlen = 7 then
    [((dbuf.getD 0 0 <<< 3) ||| (dbuf.getD 1 0 >>> 2)) % 256,
     ((dbuf.getD 1 0 <<< 6) ||| (dbuf.getD 2 0 <<< 1) ||| (dbuf.getD 3 0 >>> 4)) % 256,
     ((dbuf.getD 3 0 <<< 4) ||| (dbuf.getD 4 0 >>> 1)) % 256,
     ((dbuf.getD 4 0 <<< 7) ||| (dbuf.getD 5 0 <<< 2) ||| (dbuf.getD 6 0 >>> 3)) % 256]
  else if dlen = 5 then
    [((dbuf.getD 0 0 <<< 3) ||| (dbuf.getD 1 0 >>> 2)) % 256,
     ((dbuf.getD 1 0 <<< 6) ||| (dbuf.getD 2 0 <<< 1) ||| (dbuf.getD 3 0 >>> 4)) % 256,
     ((dbuf.getD 3 0 <<< 4) ||| (dbuf.getD 4 0 >>> 1)) % 256]
  else if dlen = 4 then
    [((dbuf.getD 0 0 <<< 3) ||| (dbuf.getD 1 0 >>> 2)) % 256,
     ((dbuf.getD 1 0 <<< 6) ||| (dbuf.getD 2 0 <<< 1) ||| (dbuf.getD 3 0 >>> 4)) % 256]
  else if dlen = 2 then
    [((dbuf.getD 0 0 <<< 3) ||| (dbuf.getD 1 0 >>> 2)) % 256]
  else []

/-- Quantum-by-quantum decode loop.  The fuel is the input length, which
suffices since a continuing quantum consumes eight characters. -/
def b32DecodeAux : Nat → List Nat → Option (List Nat)
  | _, [] => some []
  | 0, _ => none
  | fuel + 1, src =>
    match b32QuantumAux 8 0 [] src with
    | none => none
    | some (dbuf, dlen, rest, ended) =>
      if ended then some (b32Output dbuf dlen)
      else
        match b32DecodeAux fuel rest with
        | none => none
        | some more => some (b32Output dbuf dlen ++ more)

/-- Go `base32.StdEncoding.DecodeString`: newline bytes (`\r`, `\n`) are
stripped, then the input is decoded quantum by quantum. -/
def b32Decode (s : List Nat) : Option (List Nat) :=
  b32DecodeAux (s.filter (fun c => !(c == 10 || c == 13))).length
    (s.filter (fun c => !(c == 10 || c == 13)))

/-- The function `decodeKey(key string)`: `base32.StdEncoding.DecodeString(strings.ToUpper(key))`. -/
def decodeKey (s : List Nat) : Option (List Nat) := b32Decode (toUpperAscii s)

/-- Go `strconv.ParseUint(s, 10, 64)`: the string must be nonempty, consist of
ASCII decimal digits only, and denote a value below `2^64`. -/
def parseUint64 (s : List Nat) : Option Nat :=
  if s.length = 0 then none
  else if s.all (fun c => decide (48 ≤ c ∧ c ≤ 57)) then
    if s.foldl (fun acc c => acc * 10 + (c - 48)) 0 < 18446744073709551616 then
      some (s.foldl (fun acc c => acc * 10 + (c - 48)) 0)
    else none
  else none

/-- Decimal digit bytes of `n`, most significant first.  The fuel (`n + 1` at
the top-level call) dominates the number of divisions by ten. -/
def natDigitsAux : Nat → Nat → List Nat → List Nat
  | 0, _, acc => acc
  | fuel + 1, n, acc =>
      if n < 10 then (48 + n % 10) :: acc else natDigitsAux fuel (n / 10) ((48 + n % 10) :: acc)

/-- ASCII decimal rendering of a nonnegative integer (`fmt` verb `%d`). -/
def natDecimal (n : Nat) : List Nat := natDigitsAux (n + 1) n []

/-- The `fmt.Sprintf` verb `%0*d` for a nonnegative value: decimal digits
left-padded with `0` to the width. -/
def zeroPad (width n : Nat) : List Nat :=
  List.replicate (width - (natDecimal n).length) 48 ++ natDecimal n

/-- The `fmt` verb `%-*s`: left-justify by padding with spaces to the width. -/
def leftJust (width : Nat) (s : List Nat) : List Nat :=
  s ++ List.replicate (width - s.length) 32

/-- Go `os.File.WriteAt` of the bytes `b` at offset `off`: the byte range
`[off, off + len b)` of the file is replaced, extending the file (with a
zero-filled gap for a seek past the end) when the range reaches beyond the
current length. -/
def writeAt (file : List Nat) (off : Nat) (b : List Nat) : List Nat :=
  file.take off ++ List.replicate (off - file.length) 0 ++ b ++ file.drop (off + b.length)

/-- Go `bytes.Split(l, sep)` for a one-byte separator: the pieces of `l` between
occurrences of `sep`.  Always nonempty; the empty list yields `[[]]`. -/
def splitOnByte (sep : Nat) : List Nat → List (List Nat)
  | [] => [[]]
  | c :: rest =>
    if c = sep then [] :: splitOnByte sep rest
    else
      match splitOnByte sep rest with
      | [] => [[c]]
      | p :: ps => (c :: p) :: ps

/-- Go `bytes.SplitAfter(data, "\n")`: pieces of `data` each retaining their
terminating newline; the final piece (possibly empty) is the unterminated
tail. -/
def splitAfterNL : List Nat → List (List Nat)
  | [] => [[]]
  | c :: rest =>
    if c = 10 then [10] :: splitAfterNL rest
    else
      match splitAfterNL rest with
      | [] => [[c]]
      | p :: ps => (c :: p) :: ps

/-- Go `bytes.TrimSuffix(line, "\n")`: drop one trailing newline if present. -/
def trimSuffixNL (line : List Nat) : List Nat :=
  if line.getLast? = some 10 then line.dropLast else line

/-- The space-separated fields of a line, after trimming the newline:
`bytes.Split(bytes.TrimSuffix(line, "\n"), " ")`. -/
def lineFields (line : List Nat) : List (List Nat) := splitOnByte 32 (trimSuffixNL line)

/-- The blank-line test `len(f) == 1 && len(f[0]) == 0`. -/
def isBlankLine (line : List Nat) : Bool :=
  (lineFields line).length == 1 && ((lineFields line).getD 0 []).length == 0

/-- The constant `counterLen = 20`, the fixed width of the on-disk counter field. -/
def counterLen : Nat := 20

/-- One keychain entry: the decoded secret, the digit count, and the byte
offset of the counter field (`0` for a time-based key, the zero value of the
field in Go). -/
structure Key where
  raw : List Nat
  digits : Nat
  offset : Nat
deriving DecidableEq

/-- The in-memory keychain: backing file name, the raw bytes read at load
time, the name-to-key index, and the malformed-line reports issued by
`log.Printf` during loading (pairs of file name and 1-based line number). -/
structure Keychain where
  file : String
  data : List Nat
  keys : List (List Nat × Key)
  logs : List (String × Nat)
deriving DecidableEq

/-- Go map assignment `keys[name] = k`: replace the entry for `name` if one
exists, otherwise add one. -/
def mapInsert (m : List (List Nat × Key)) (name : List Nat) (k : Key) : List (List Nat × Key) :=
  if m.any (fun p => p.1 == name) then m.map (fun p => if p.1 == name then (name, k) else p)
  else m ++ [(name, k)]

/-- Go map lookup `keys[name]` (as the comma-ok form). -/
def mapFind (m : List (List Nat × Key)) (name : List Nat) : Option Key :=
  (m.find? (fun p => p.1 == name)).map (fun p => p.2)

/-- The per-line validation and key construction of `readKeychain`:
`offsetAfter` is the cumulative byte offset just past this line.  Returns the
name/key pair for a valid record line and `none` for a malformed one (the
path that logs `malformed key`).  A valid line needs at least three fields, a
one-character digits field between `6` and `8`, a secret that base32-decodes,
and then either exactly three fields, or exactly four with a 20-character
counter parsing as a `uint64`; the counter offset is `offsetAfter` minus the
counter width, minus one more if the line ends in a newline. -/
def lineEntry (offsetAfter : Nat) (line : List Nat) : Option (List Nat × Key) :=
  if 3 ≤ (lineFields line).length ∧ ((lineFields line).getD 1 []).length = 1 ∧
      54 ≤ ((lineFields line).getD 1 []).getD 0 0 ∧ ((lineFields line).getD 1 []).getD 0 0 ≤ 56 then
    match decodeKey ((lineFields line).getD 2 []) with
    | none => none
    | some raw =>
      if (lineFields line).length = 3 then
        some ((lineFields line).getD 0 [], ⟨raw, ((lineFields line).getD 1 []).getD 0 0 - 48, 0⟩)
      else
        if (lineFields line).length = 4 ∧ ((lineFields line).getD 3 []).length = counterLen then
          match parseUint64 ((lineFields line).getD 3 []) with
          | some _ =>
            some ((lineFields line).getD 0 [],
              ⟨raw, ((lineFields line).getD 1 []).getD 0 0 - 48,
                offsetAfter - counterLen - (if line.getLast? = some 10 then 1 else 0)⟩)
          | none => none
        else none
  else none

/-- The state threaded through `readKeychain`'s loop: the index built so far,
the log lines issued so far, the cumulative byte offset, and the 1-based
number of the next line. -/
structure LoadState where
  keys : List (List Nat × Key)
  logs : List (String × Nat)
  offset : Nat
  lineno : Nat
deriving DecidableEq

/-- One iteration of `readKeychain`'s loop: advance the offset past the line,
skip a blank line, insert a valid record, and log `file:lineno: malformed
key` otherwise. -/
def loadStep (file : String) (st : LoadState) (line : List Nat) : LoadState :=
  if isBlankLine line then
    ⟨st.keys, st.logs, st.offset + line.length, st.lineno + 1⟩
  else
    match lineEntry (st.offset + line.length) line with
    | some (name, k) => ⟨mapInsert st.keys name k, st.logs, st.offset + line.length, st.lineno + 1⟩
    | none => ⟨st.keys, st.logs ++ [(file, st.lineno)], st.offset + line.length, st.lineno + 1⟩

/-- The function `readKeychain`, given the bytes of an existing backing file: split after
newlines, validate each line, and retain the raw bytes alongside the index.
Loading is total: it never aborts, whatever the file contents. -/
def readKeychain (file : String) (data : List Nat) : Keychain :=
  let final := (splitAfterNL data).foldl (loadStep file) ⟨[], [], 0, 1⟩
  ⟨file, data, final.keys, final.logs⟩

/-- The method `Keychain.code(name)` of one program invocation.  `fileNow` is the current
content of the backing file (equal to `c.data` in the single-process runs
modelled here) and `now` the clock reading in nanoseconds since the epoch.
Returns the rendered code and the resulting backing-file content; `none`
models a fatal exit (`no such key`, `malformed key counter`) or the slice
panic were the counter range to reach past the buffer.  For a counter-based
key (nonzero offset) the 20-byte counter field is parsed, incremented (with
`uint64` wraparound), used as the HOTP counter, and written back zero-padded
in place; a time-based key computes `totp` and leaves the file untouched. -/
def code (c : Keychain) (fileNow : List Nat) (now : Int) (name : List Nat) :
    Option (List Nat × List Nat) :=
  match mapFind c.keys name with
  | none => none
  | some k =>
    if k.offset ≠ 0 then
      if c.data.length < k.offset + counterLen then none
      else
        match parseUint64 ((c.data.drop k.offset).take counterLen) with
        | none => none
        | some n0 =>
          some (zeroPad k.digits (hotp k.raw ((n0 + 1) % 18446744073709551616) (k.digits : Int)),
            writeAt fileNow k.offset (zeroPad counterLen ((n0 + 1) % 18446744073709551616)))
    else some (zeroPad k.digits (totp k.raw now (k.digits : Int)), fileNow)

/-- Lexicographic byte-string comparison, the order of `sort.Strings`. -/
def bytesLe : List Nat → List Nat → Bool
  | [], _ => true
  | _ :: _, [] => false
  | x :: xs, y :: ys => if x < y then true else if y < x then false else bytesLe xs ys

/-- The order `bytesLe` as a relation, for use with `List.insertionSort`. -/
def bytesLeR (a b : List Nat) : Prop := bytesLe a b = true

instance : DecidableRel bytesLeR := fun a b => by unfold bytesLeR; infer_instance

/-- The running maximum `max` of the digit counts, computed while ranging
over the index in `showAll`. -/
def maxDigits (c : Keychain) : Nat :=
  c.keys.foldl (fun m p => if m < p.2.digits then p.2.digits else m) 0

/-- The sorted name list `showAll` iterates over (`sort.Strings(names)`). -/
def sortedNames (c : Keychain) : List (List Nat) :=
  List.insertionSort bytesLeR (c.keys.map (fun p => p.1))

/-- The loop body of `showAll` over the sorted names, threading the backing
file and accumulating the printed lines (code column left-justified to the
widest digit count, a tab, then the name).  A key with nonzero offset is
rendered as `digits` dashes without touching the file; one with offset zero
goes through `Keychain.code`. -/
def showAllGo (c : Keychain) (now : Int) (maxd : Nat) :
    List (List Nat) → List (List Nat) → List Nat → Option (List (List Nat) × List Nat)
  | [], acc, fileNow => some (acc.reverse, fileNow)
  | name :: rest, acc, fileNow =>
    if ((mapFind c.keys name).getD ⟨[], 0, 0⟩).offset = 0 then
      match code c fileNow now name with
      | none => none
      | some (s, file2) => showAllGo c now maxd rest ((leftJust maxd s ++ 9 :: name) :: acc) file2
    else
      showAllGo c now maxd rest
        ((leftJust maxd (List.replicate ((mapFind c.keys name).getD ⟨[], 0, 0⟩).digits 45) ++
            9 :: name) :: acc) fileNow

/-- The method `Keychain.showAll()`: compute the widest digit count, sort the names,
and print one line per key. -/
def showAll (c : Keychain) (now : Int) : Option (List (List Nat) × List Nat) :=
  showAllGo c now (maxDigits c) (sortedNames c) [] c.data

/-- Pair each element with its 1-based position, starting from `i`. -/
def numberFrom : Nat → List (List Nat) → List (Nat × List Nat)
  | _, [] => []
  | i, l :: ls => (i, l) :: numberFrom (i + 1) ls

/-- The specification's validity conditions for a line, stated as in the
spec: the single-space-separated field count is 3 or 4, the digits field is
exactly one character between `6` and `8`, the secret field decodes as base32
after upper-casing, and, when a fourth field is present, it is exactly 20
characters parsing as an unsigned 64-bit decimal integer.  Stated for
comparison against the source-derived `lineEntry`. -/
def specValidRecord (line : List Nat) : Bool :=
  decide (((lineFields line).length = 3 ∨ (lineFields line).length = 4) ∧
    ((lineFields line).getD 1 []).length = 1 ∧
    54 ≤ ((lineFields line).getD 1 []).getD 0 0 ∧
    ((lineFields line).getD 1 []).getD 0 0 ≤ 56 ∧
    (decodeKey ((lineFields line).getD 2 [])).isSome = true ∧
    ((lineFields line).length = 4 →
      ((lineFields line).getD 3 []).length = 20 ∧
        (parseUint64 ((lineFields line).getD 3 [])).isSome = true))

/-- The RFC 4226 test secret: the ASCII bytes of `12345678901234567890`. -/
def rfcSecret : List Nat := asciiBytes "12345678901234567890"

/-- A one-record backing file with a counter-based key named `test`, six
digits, the RFC 4226 secret (base32 `GEZDGNBVGY3TQOJQGEZDGNBVGY3TQOJQ`), and
counter field twenty zero digits.  The counter field occupies bytes 40–59. -/
def demoFile0 : List Nat :=
  asciiBytes "test 6 GEZDGNBVGY3TQOJQGEZDGNBVGY3TQOJQ 00000000000000000000\n"

/-- The file `demoFile0` after one counter advance (counter field `…01`). -/
def demoFile1 : List Nat :=
  asciiBytes "test 6 GEZDGNBVGY3TQOJQGEZDGNBVGY3TQOJQ 00000000000000000001\n"

/-- The file `demoFile0` after two counter advances (counter field `…02`). -/
def demoFile2 : List Nat :=
  asciiBytes "test 6 GEZDGNBVGY3TQOJQGEZDGNBVGY3TQOJQ 00000000000000000002\n"

/-- The same record with the counter field holding the maximum `uint64`
value `18446744073709551615`. -/
def demoFileMax : List Nat :=
  asciiBytes "test 6 GEZDGNBVGY3TQOJQGEZDGNBVGY3TQOJQ 18446744073709551615\n"

/-- The name of the record in the demonstration files. -/
def demoName : List Nat := asciiBytes "test"

end TwoFA

namespace TwoFA

set_option maxRecDepth 40000

/-- Claim C2: `hotp` applied to the secret given by the ASCII bytes of
`12345678901234567890` with 6 digits returns 755224 for counter 0 and
287082 for counter 1 (the first two RFC 4226 test vectors). -/
theorem hotp_rfc4226_first_vectors :
    hotp rfcSecret 0 6 = 755224 ∧ hotp rfcSecret 1 6 = 287082 :=
  ⟨by decide, by decide⟩

/-- Claim C1: starting from a counter-based record whose stored counter field
is twenty zero digits, calling `Code` twice in succession — each call one
program invocation, loading the keychain from the file the previous call
left behind, as the one-shot CLI does — produces two different code strings,
computed from counter value 1 and then counter value 2, and afterwards the
on-disk counter field (at the record's offset 40) reads
`00000000000000000002` and is still exactly 20 bytes long (the whole file
length is unchanged). -/
theorem code_twice_advances_counter :
    code (readKeychain "2fa" demoFile0) demoFile0 0 demoName =
      some (asciiBytes "287082", demoFile1) ∧
    code (readKeychain "2fa" demoFile1) demoFile1 0 demoName =
      some (asciiBytes "359152", demoFile2) ∧
    asciiBytes "287082" = zeroPad 6 (hotp rfcSecret 1 6) ∧
    asciiBytes "359152" = zeroPad 6 (hotp rfcSecret 2 6) ∧
    asciiBytes "287082" ≠ asciiBytes "359152" ∧
    mapFind (readKeychain "2fa" demoFile2).keys demoName = some ⟨rfcSecret, 6, 40⟩ ∧
    (demoFile2.drop 40).take counterLen = asciiBytes "00000000000000000002" ∧
    ((demoFile2.drop 40).take counterLen).length = 20 ∧
    demoFile2.length = demoFile0.length :=
  ⟨by decide, by decide, by decide, by decide, by decide, by decide, by decide, by decide,
    by decide⟩

/-- Claim C9: counter advancement wraps modulo `2^64`: on a record whose
20-digit counter field parses to 18446744073709551615 (the maximum `uint64`
value), `Code` increments to 0, produces the code for counter 0, and writes
`00000000000000000000` back — re-issuing a previously issuable code rather
than failing. -/
theorem code_counter_wraps_at_max :
    parseUint64 ((demoFileMax.drop 40).take counterLen) = some 18446744073709551615 ∧
    code (readKeychain "2fa" demoFileMax) demoFileMax 0 demoName =
      some (asciiBytes "755224", demoFile0) ∧
    asciiBytes "755224" = zeroPad 6 (hotp rfcSecret 0 6) ∧
    (demoFile0.drop 40).take counterLen = asciiBytes "00000000000000000000" :=
  ⟨by decide, by decide, by decide, by decide⟩

/-- Closed form of the digit loop: starting at `i` with accumulator `d` and
`fuel` iterations left, the loop multiplies `d` by ten once per step of `i`
toward `digits`, capped by the fuel. -/
theorem hotpLoopAux_eq (digits : Int) : ∀ (fuel i d : Nat),
    hotpLoopAux digits fuel i d = d * 10 ^ (min (max (digits - (i : Int)) 0) (fuel : Int)).toNat := by
  intro fuel
  induction fuel with
  | zero =>
    intro i d
    have h : min (max (digits - (i : Int)) 0) ((0 : Nat) : Int) = 0 := by
      push_cast
      omega
    simp [hotpLoopAux, h]
  | succ fuel ih =>
    intro i d
    rw [hotpLoopAux]
    split
    · rw [ih (i + 1) (d * 10)]
      have hE : (min (max (digits - (i : Int)) 0) ((fuel + 1 : Nat) : Int)).toNat =
          (min (max (digits - ((i + 1 : Nat) : Int)) 0) ((fuel : Nat) : Int)).toNat + 1 := by
        push_cast
        push_cast at *
        omega
      rw [hE, pow_succ]
      ring
    · have h : min (max (digits - (i : Int)) 0) ((fuel : Int) + 1) = 0 := by omega
      simp [h]

/-- The modulus computed by `hotp`'s loop is ten to the power of `digits`
clamped to the interval `[0, 8]`. -/
theorem hotpD_eq (digits : Int) : hotpD digits = 10 ^ (min (max digits 0) 8).toNat := by
  rw [hotpD, hotpLoopAux_eq digits 8 0 1]
  norm_num

/-- Claim C5: for every secret, counter and integer digit count, `hotp` reduces
the truncated HMAC value modulo `10 ^ min(max(digits,0),8)`; for digits
greater than 8 the result equals the result for 8 digits, and the result is
always below `10^8`. -/
theorem hotp_digits_clamped (key : List Nat) (counter : Nat) (digits : Int) :
    hotp key counter digits = hotpTrunc key counter % 10 ^ (min (max digits 0) 8).toNat ∧
    (8 < digits → hotp key counter digits = hotp key counter 8) ∧
    hotp key counter digits < 10 ^ 8 := by
  refine ⟨by rw [hotp, hotpD_eq], ?_, ?_⟩
  · intro h
    rw [hotp, hotp, hotpD_eq, hotpD_eq]
    have he : min (max digits 0) 8 = min (max (8 : Int) 0) 8 := by omega
    rw [he]
  · rw [hotp, hotpD_eq]
    have h1 : (min (max digits 0) 8).toNat ≤ 8 := by omega
    calc hotpTrunc key counter % 10 ^ (min (max digits 0) 8).toNat
        < 10 ^ (min (max digits 0) 8).toNat := Nat.mod_lt _ (pow_pos (by norm_num) _)
      _ ≤ 10 ^ 8 := Nat.pow_le_pow_right (by norm_num) h1

/-- Witness for the clamping theorem at concrete inputs: nine requested
digits collapse to eight, and the six-digit result is below `10^8`. -/
theorem hotp_digits_clamped_witness :
    hotp rfcSecret 0 9 = hotp rfcSecret 0 8 ∧ hotp rfcSecret 0 6 < 10 ^ 8 :=
  ⟨(hotp_digits_clamped rfcSecret 0 9).2.1 (by norm_num),
   (hotp_digits_clamped rfcSecret 0 6).2.2⟩

/-- Claim C4, amended: for every timestamp at or after the Unix epoch whose
nanosecond count is below `2^64` — in particular throughout the range where
Go defines `UnixNano` — `totp` equals `hotp` at counter
`floor(now_in_seconds / 30)`.  Beyond that the `uint64(t.UnixNano())`
conversion wraps modulo `2^64` (see the counterexample). -/
theorem totp_eq_hotp_div30 (key : List Nat) (digits : Int) (ns : Int)
    (h0 : 0 ≤ ns) (h1 : ns < 18446744073709551616) :
    totp key ns digits = hotp key (ns.toNat / 1000000000 / 30) digits := by
  rw [totp, Int.emod_eq_of_lt h0 h1, Nat.div_div_eq_div_mul]

/-- Witness: at Unix time 59 seconds the derived counter is 1 (the RFC 6238
example step). -/
theorem totp_eq_hotp_div30_witness :
    totp rfcSecret 59000000000 6 = hotp rfcSecret 1 6 := by
  have h := totp_eq_hotp_div30 rfcSecret 6 59000000000 (by norm_num) (by norm_num)
  have e : (59000000000 : Int).toNat / 1000000000 / 30 = 1 := by decide
  rw [e] at h
  exact h

/-- A blank line (the `len(f) == 1 && len(f[0]) == 0` test) is never a valid
record. -/
theorem lineEntry_eq_none_of_blank (off : Nat) (line : List Nat)
    (h : isBlankLine line = true) : lineEntry off line = none := by
  have hlen : (lineFields line).length = 1 := by
    unfold isBlankLine at h
    simp only [Bool.and_eq_true, beq_iff_eq] at h
    exact h.1
  rw [lineEntry, if_neg]
  intro hc
  rcases hc with ⟨h3, _⟩
  omega

/-- A line accepted as a record is not blank. -/
theorem isBlankLine_false_of_lineEntry (off : Nat) (line : List Nat) (p : List Nat × Key)
    (h : lineEntry off line = some p) : isBlankLine line = false := by
  cases hb : isBlankLine line
  · rfl
  · rw [lineEntry_eq_none_of_blank off line hb] at h
    cases h

/-- The empty final piece of a newline-terminated file is blank. -/
theorem isBlankLine_nil : isBlankLine [] = true := by decide

/-- Claim C6: loading a newline-terminated file of two valid record lines with
the same name leaves the in-memory index mapping that name to the later
line's record (last-write-wins), raises no error (no malformed-line
report), and leaves the file bytes — both lines — intact. -/
theorem load_duplicate_name_last_wins (file : String) (data line1 line2 name : List Nat)
    (k1 k2 : Key) (hsplit : splitAfterNL data = [line1, line2, []])
    (h1 : lineEntry line1.length line1 = some (name, k1))
    (h2 : lineEntry (line1.length + line2.length) line2 = some (name, k2)) :
    (readKeychain file data).keys = [(name, k2)] ∧
    mapFind (readKeychain file data).keys name = some k2 ∧
    (readKeychain file data).logs = [] ∧
    (readKeychain file data).data = data := by
  have hb1 := isBlankLine_false_of_lineEntry _ _ _ h1
  have hb2 := isBlankLine_false_of_lineEntry _ _ _ h2
  simp only [readKeychain, hsplit, List.foldl, loadStep, hb1, hb2, isBlankLine_nil,
    Bool.false_eq_true, if_false, if_true, Nat.zero_add, h1, h2, mapInsert, mapFind,
    List.any_nil, List.any_cons, beq_self_eq_true, Bool.true_or, List.nil_append,
    List.map_cons, List.map_nil, List.find?, List.append_nil]
  exact ⟨by trivial, by trivial, by trivial, by trivial⟩

/-- Witness for the duplicate-name theorem: a concrete two-line file whose
records share the name `github`; the index holds the second (7-digit)
record. -/
theorem load_duplicate_name_last_wins_witness :
    (readKeychain "2fa" (asciiBytes "github 6 AAAAAAAA\ngithub 7 AAAAAAAA\n")).keys =
      [(asciiBytes "github", ⟨[0, 0, 0, 0, 0], 7, 0⟩)] ∧
    mapFind (readKeychain "2fa" (asciiBytes "github 6 AAAAAAAA\ngithub 7 AAAAAAAA\n")).keys
        (asciiBytes "github") = some ⟨[0, 0, 0, 0, 0], 7, 0⟩ ∧
    (readKeychain "2fa" (asciiBytes "github 6 AAAAAAAA\ngithub 7 AAAAAAAA\n")).logs = [] ∧
    (readKeychain "2fa" (asciiBytes "github 6 AAAAAAAA\ngithub 7 AAAAAAAA\n")).data =
      asciiBytes "github 6 AAAAAAAA\ngithub 7 AAAAAAAA\n" :=
  load_duplicate_name_last_wins "2fa"
    (asciiBytes "github 6 AAAAAAAA\ngithub 7 AAAAAAAA\n")
    (asciiBytes "github 6 AAAAAAAA\n") (asciiBytes "github 7 AAAAAAAA\n")
    (asciiBytes "github") ⟨[0, 0, 0, 0, 0], 6, 0⟩ ⟨[0, 0, 0, 0, 0], 7, 0⟩
    (by decide) (by decide) (by decide)


/-- The validator `lineEntry` accepts a line exactly under the specification's conditions:
field count 3 or 4, a one-character digits field between `6` and `8`, a
base32-decodable secret, and — when a fourth field is present — a
20-character field parsing as a `uint64`. -/
theorem lineEntry_isSome_iff (off : Nat) (line : List Nat) :
    (∃ p, lineEntry off line = some p) ↔
      ((lineFields line).length = 3 ∨ (lineFields line).length = 4) ∧
        ((lineFields line).getD 1 []).length = 1 ∧
        54 ≤ ((lineFields line).getD 1 []).getD 0 0 ∧
        ((lineFields line).getD 1 []).getD 0 0 ≤ 56 ∧
        (decodeKey ((lineFields line).getD 2 [])).isSome = true ∧
        ((lineFields line).length = 4 →
          ((lineFields line).getD 3 []).length = 20 ∧
            (parseUint64 ((lineFields line).getD 3 [])).isSome = true) := by
  constructor
  · rintro ⟨p, hp⟩
    rw [lineEntry] at hp
    split at hp
    case isTrue hg =>
      obtain ⟨h3, hd1, hd2, hd3⟩ := hg
      split at hp
      case h_1 => cases hp
      case h_2 raw hdec =>
        split at hp
        case isTrue hl3 =>
          exact ⟨Or.inl hl3, hd1, hd2, hd3, by rw [hdec]; rfl, fun h4 => by omega⟩
        case isFalse hl3 =>
          split at hp
          case isTrue hq =>
            obtain ⟨hl4, h20⟩ := hq
            split at hp
            case h_1 n0 hps =>
              exact ⟨Or.inr hl4, hd1, hd2, hd3, by rw [hdec]; rfl,
                fun _ => ⟨h20, by rw [hps]; rfl⟩⟩
            case h_2 => cases hp
          case isFalse => cases hp
    case isFalse => cases hp
  · rintro ⟨hlen34, h1, h2, h3, hdec, h4⟩
    rw [lineEntry, if_pos ⟨by rcases hlen34 with h | h <;> omega, h1, h2, h3⟩]
    obtain ⟨raw, hr⟩ := Option.isSome_iff_exists.mp hdec
    simp only [hr]
    rcases hlen34 with hl3 | hl4
    · rw [if_pos hl3]
      exact ⟨_, rfl⟩
    · rw [if_neg (show ¬ (lineFields line).length = 3 by omega)]
      obtain ⟨h20, hps⟩ := h4 hl4
      rw [if_pos ⟨hl4, show ((lineFields line).getD 3 []).length = counterLen from h20⟩]
      obtain ⟨n0, hn⟩ := Option.isSome_iff_exists.mp hps
      simp only [hn]
      exact ⟨_, rfl⟩

/-- The source's per-line acceptance agrees with the spec's Boolean validity
predicate. -/
theorem lineEntry_isSome_eq_spec (off : Nat) (line : List Nat) :
    (lineEntry off line).isSome = specValidRecord line := by
  rw [specValidRecord]
  by_cases h : ((lineFields line).length = 3 ∨ (lineFields line).length = 4) ∧
      ((lineFields line).getD 1 []).length = 1 ∧
      54 ≤ ((lineFields line).getD 1 []).getD 0 0 ∧
      ((lineFields line).getD 1 []).getD 0 0 ≤ 56 ∧
      (decodeKey ((lineFields line).getD 2 [])).isSome = true ∧
      ((lineFields line).length = 4 →
        ((lineFields line).getD 3 []).length = 20 ∧
          (parseUint64 ((lineFields line).getD 3 [])).isSome = true)
  · rw [decide_eq_true h]
    obtain ⟨p, hp⟩ := (lineEntry_isSome_iff off line).mpr h
    rw [hp]
    rfl
  · rw [decide_eq_false h]
    cases he : lineEntry off line with
    | none => rfl
    | some p => exact absurd ((lineEntry_isSome_iff off line).mp ⟨p, he⟩) h

/-- A non-true Bool is false. -/
theorem bool_eq_false_of_ne_true {b : Bool} (h : ¬ b = true) : b = false := by
  cases b
  · rfl
  · exact absurd rfl h

/-- The step `loadStep` always advances the line number by one. -/
theorem loadStep_lineno (file : String) (st : LoadState) (line : List Nat) :
    (loadStep file st line).lineno = st.lineno + 1 := by
  rw [loadStep]
  split
  · rfl
  · split
    · rfl
    · rfl

/-- The log lines accumulated by the load loop are exactly the reports for
the non-blank invalid lines, numbered consecutively from the starting line
number. -/
theorem load_logs_eq (file : String) : ∀ (lines : List (List Nat)) (st : LoadState),
    ((lines.foldl (loadStep file) st).logs) =
      st.logs ++ (numberFrom st.lineno lines).filterMap
        (fun p => if isBlankLine p.2 = false ∧ specValidRecord p.2 = false
          then some (file, p.1) else none) := by
  intro lines
  induction lines with
  | nil => intro st; simp [numberFrom]
  | cons line rest ih =>
    intro st
    rw [List.foldl_cons, ih, loadStep_lineno, numberFrom, List.filterMap_cons]
    by_cases hb : isBlankLine line = true
    · have hstep : (loadStep file st line).logs = st.logs := by rw [loadStep, if_pos hb]
      have hcond : (if isBlankLine line = false ∧ specValidRecord line = false
          then some (file, st.lineno) else none) = none := by
        rw [if_neg]
        rintro ⟨hf, _⟩
        rw [hb] at hf
        cases hf
      rw [hstep, hcond]
    · have hbf : isBlankLine line = false := bool_eq_false_of_ne_true hb
      by_cases hs : specValidRecord line = true
      · have hsome : (lineEntry (st.offset + line.length) line).isSome = true := by
          rw [lineEntry_isSome_eq_spec]
          exact hs
        obtain ⟨⟨name, k⟩, hk⟩ := Option.isSome_iff_exists.mp hsome
        have hstep : (loadStep file st line).logs = st.logs := by
          simp only [loadStep, hbf, Bool.false_eq_true, if_false, hk]
        have hcond : (if isBlankLine line = false ∧ specValidRecord line = false
            then some (file, st.lineno) else none) = none := by
          rw [if_neg]
          rintro ⟨_, hsf⟩
          rw [hs] at hsf
          cases hsf
        rw [hstep, hcond]
      · have hsf : specValidRecord line = false := bool_eq_false_of_ne_true hs
        have hnone : lineEntry (st.offset + line.length) line = none := by
          have hiso := lineEntry_isSome_eq_spec (st.offset + line.length) line
          rw [hsf] at hiso
          cases he : lineEntry (st.offset + line.length) line with
          | none => rfl
          | some p => rw [he] at hiso; cases hiso
        have hstep : (loadStep file st line).logs = st.logs ++ [(file, st.lineno)] := by
          simp only [loadStep, hbf, Bool.false_eq_true, if_false, hnone]
        rw [hstep, if_pos ⟨hbf, hsf⟩]
        simp [List.append_assoc]

/-- Claim C3: during `Load`, a non-blank line is entered into the in-memory
index exactly when the spec's conditions hold (field count 3 or 4, a
one-character digits field between `6` and `8`, a base32-decodable secret,
and — with a fourth field — exactly 20 characters parsing as a `uint64`);
every other non-blank line leaves the index unchanged and is reported with
the file name and its 1-based line number; and the reports of a whole load
are exactly those of the non-blank invalid lines, so loading (a total
function here) never aborts. -/
theorem load_line_validation :
    (∀ (file : String) (st : LoadState) (line : List Nat), isBlankLine line = false →
      if specValidRecord line = true then
        (loadStep file st line).logs = st.logs ∧
          ∃ name k, lineEntry (st.offset + line.length) line = some (name, k) ∧
            (loadStep file st line).keys = mapInsert st.keys name k
      else
        (loadStep file st line).keys = st.keys ∧
          (loadStep file st line).logs = st.logs ++ [(file, st.lineno)]) ∧
    ∀ (file : String) (data : List Nat),
      (readKeychain file data).logs =
        (numberFrom 1 (splitAfterNL data)).filterMap
          (fun p => if isBlankLine p.2 = false ∧ specValidRecord p.2 = false
            then some (file, p.1) else none) := by
  constructor
  · intro file st line hb
    by_cases hs : specValidRecord line = true
    · rw [if_pos hs]
      have hsome : (lineEntry (st.offset + line.length) line).isSome = true := by
        rw [lineEntry_isSome_eq_spec]
        exact hs
      obtain ⟨⟨name, k⟩, hk⟩ := Option.isSome_iff_exists.mp hsome
      refine ⟨?_, name, k, hk, ?_⟩
      · simp only [loadStep, hb, Bool.false_eq_true, if_false, hk]
      · simp only [loadStep, hb, Bool.false_eq_true, if_false, hk]
    · rw [if_neg hs]
      have hsf : specValidRecord line = false := bool_eq_false_of_ne_true hs
      have hnone : lineEntry (st.offset + line.length) line = none := by
        have hiso := lineEntry_isSome_eq_spec (st.offset + line.length) line
        rw [hsf] at hiso
        cases he : lineEntry (st.offset + line.length) line with
        | none => rfl
        | some p => rw [he] at hiso; cases hiso
      constructor
      · simp only [loadStep, hb, Bool.false_eq_true, if_false, hnone]
      · simp only [loadStep, hb, Bool.false_eq_true, if_false, hnone]
  · intro file data
    have h := load_logs_eq file (splitAfterNL data) ⟨[], [], 0, 1⟩
    simpa [readKeychain] using h

/-- Witness for the validation theorem: the malformed line `name 9 AAAAAAAA`
(digits field out of range) is rejected, the index stays empty, and the
report carries the file name and line number 1. -/
theorem load_line_validation_witness :
    (loadStep "2fa" ⟨[], [], 0, 1⟩ (asciiBytes "name 9 AAAAAAAA\n")).keys = [] ∧
    (loadStep "2fa" ⟨[], [], 0, 1⟩ (asciiBytes "name 9 AAAAAAAA\n")).logs = [("2fa", 1)] := by
  have h := load_line_validation.1 "2fa" ⟨[], [], 0, 1⟩ (asciiBytes "name 9 AAAAAAAA\n")
    (by decide)
  rw [if_neg (by decide)] at h
  simpa using h

/-- The order `bytesLe` is total. -/
theorem bytesLe_total : ∀ (a b : List Nat), bytesLe a b = true ∨ bytesLe b a = true := by
  intro a
  induction a with
  | nil => intro b; left; rfl
  | cons x xs ih =>
    intro b
    cases b with
    | nil => right; rfl
    | cons y ys =>
      rw [bytesLe, bytesLe]
      rcases Nat.lt_trichotomy x y with h1 | h1 | h1
      · left
        rw [if_pos h1]
      · rw [if_neg (by omega), if_neg (by omega), if_neg (by omega), if_neg (by omega)]
        exact ih ys
      · right
        rw [if_pos h1]

/-- The order `bytesLe` is transitive. -/
theorem bytesLe_trans : ∀ (a b c : List Nat),
    bytesLe a b = true → bytesLe b c = true → bytesLe a c = true := by
  intro a
  induction a with
  | nil => intro b c _ _; rfl
  | cons x xs ih =>
    intro b c hab hbc
    cases b with
    | nil => cases hab
    | cons y ys =>
      cases c with
      | nil => cases hbc
      | cons z zs =>
        rw [bytesLe] at hab hbc ⊢
        rcases Nat.lt_trichotomy x y with h1 | h1 | h1
        · rcases Nat.lt_trichotomy y z with h2 | h2 | h2
          · rw [if_pos (by omega)]
          · rw [if_pos (by omega)]
          · rw [if_neg (by omega), if_pos (by omega)] at hbc
            cases hbc
        · rw [if_neg (by omega), if_neg (by omega)] at hab
          rcases Nat.lt_trichotomy y z with h2 | h2 | h2
          · rw [if_pos (by omega)]
          · rw [if_neg (by omega), if_neg (by omega)] at hbc
            rw [if_neg (by omega), if_neg (by omega)]
            exact ih ys zs hab hbc
          · rw [if_neg (by omega), if_pos (by omega)] at hbc
            cases hbc
        · rw [if_neg (by omega), if_pos (by omega)] at hab
          cases hab

instance : IsTotal (List Nat) bytesLeR := ⟨bytesLe_total⟩

instance : IsTrans (List Nat) bytesLeR := ⟨bytesLe_trans⟩

/-- A name occurring in the index is found by `mapFind`. -/
theorem mapFind_isSome_of_mem (m : List (List Nat × Key)) (n : List Nat)
    (h : n ∈ m.map (fun p => p.1)) : (mapFind m n).isSome = true := by
  obtain ⟨p, hp, hq⟩ := List.mem_map.mp h
  cases hf : m.find? (fun q => q.1 == n) with
  | none =>
    rw [List.find?_eq_none] at hf
    exact absurd (beq_iff_eq.mpr hq) (hf p hp)
  | some q =>
    rw [mapFind, hf]
    rfl

/-- Closed form of `showAll`'s loop: when every listed name is present in
the index, the loop succeeds, renders each entry (time-based via `totp`,
counter-based as dashes), and returns the backing file unchanged. -/
theorem showAllGo_eq (c : Keychain) (now : Int) (maxd : Nat) :
    ∀ (names : List (List Nat)) (acc : List (List Nat)) (fileNow : List Nat),
      (∀ n ∈ names, (mapFind c.keys n).isSome = true) →
      showAllGo c now maxd names acc fileNow =
        some (acc.reverse ++ names.map (fun n =>
          leftJust maxd (match mapFind c.keys n with
            | some k => if k.offset = 0 then zeroPad k.digits (totp k.raw now (k.digits : Int))
                        else List.replicate k.digits 45
            | none => []) ++ 9 :: n), fileNow) := by
  intro names
  induction names with
  | nil =>
    intro acc fileNow _
    simp [showAllGo]
  | cons n rest ih =>
    intro acc fileNow hmem
    obtain ⟨k, hk⟩ := Option.isSome_iff_exists.mp (hmem n (List.mem_cons_self _ _))
    rw [showAllGo]
    simp only [hk, Option.getD_some]
    by_cases hoff : k.offset = 0
    · rw [if_pos hoff]
      have hcode : code c fileNow now n =
          some (zeroPad k.digits (totp k.raw now (k.digits : Int)), fileNow) := by
        simp [code, hk, hoff]
      simp only [hcode]
      rw [ih _ fileNow (fun m hm => hmem m (List.mem_cons_of_mem _ hm))]
      simp [hk, hoff, List.append_assoc]
    · rw [if_neg hoff, ih _ fileNow (fun m hm => hmem m (List.mem_cons_of_mem _ hm))]
      simp [hk, hoff, List.append_assoc]

/-- The foldl computing the display width dominates its seed and every digit
count seen. -/
theorem foldl_max_le : ∀ (l : List (List Nat × Key)) (init : Nat),
    init ≤ l.foldl (fun m p => if m < p.2.digits then p.2.digits else m) init ∧
    ∀ p ∈ l, p.2.digits ≤ l.foldl (fun m p => if m < p.2.digits then p.2.digits else m) init := by
  intro l
  induction l with
  | nil =>
    intro init
    exact ⟨Nat.le_refl _, by simp⟩
  | cons q rest ih =>
    intro init
    rw [List.foldl_cons]
    have hstep : init ≤ if init < q.2.digits then q.2.digits else init := by split <;> omega
    have h2 : q.2.digits ≤ if init < q.2.digits then q.2.digits else init := by split <;> omega
    obtain ⟨ha, hb⟩ := ih (if init < q.2.digits then q.2.digits else init)
    refine ⟨le_trans hstep ha, ?_⟩
    intro p hp
    rcases List.mem_cons.mp hp with rfl | hmem
    · exact le_trans h2 ha
    · exact hb p hmem

/-- Every digit count in the index is bounded by `maxDigits`. -/
theorem maxDigits_bound (c : Keychain) : ∀ p ∈ c.keys, p.2.digits ≤ maxDigits c :=
  (foldl_max_le c.keys 0).2

/-- Claim C7: `ShowAll` iterates the names in lexicographically sorted order
(a sorted permutation of the index's names); every time-based entry renders
its computed `totp` code and every counter-based entry renders exactly
`digits` dash characters; no write happens to the backing file (the returned
file content is exactly `c.data`, counter fields included); and each code
column is left-justified to the maximum digit count among all entries,
followed by a tab and the name. -/
theorem showAll_frame_and_sorted (c : Keychain) (now : Int) :
    showAll c now =
      some ((sortedNames c).map (fun n =>
        leftJust (maxDigits c) (match mapFind c.keys n with
          | some k => if k.offset = 0 then zeroPad k.digits (totp k.raw now (k.digits : Int))
                      else List.replicate k.digits 45
          | none => []) ++ 9 :: n), c.data) ∧
    List.Sorted bytesLeR (sortedNames c) ∧
    List.Perm (sortedNames c) (c.keys.map (fun p => p.1)) ∧
    ∀ p ∈ c.keys, p.2.digits ≤ maxDigits c := by
  refine ⟨?_, List.sorted_insertionSort bytesLeR _, List.perm_insertionSort bytesLeR _,
    maxDigits_bound c⟩
  rw [showAll, showAllGo_eq c now (maxDigits c) (sortedNames c) [] c.data]
  · simp
  · intro n hn
    apply mapFind_isSome_of_mem
    rw [sortedNames] at hn
    exact (List.mem_insertionSort bytesLeR).mp hn

/-- Witness for the `ShowAll` theorem at a concrete one-entry keychain. -/
theorem showAll_frame_and_sorted_witness :
    (asciiBytes "a", (⟨[0, 0, 0, 0, 0], 6, 0⟩ : Key)).2.digits ≤
      maxDigits (readKeychain "2fa" (asciiBytes "a 6 AAAAAAAA\n")) :=
  (showAll_frame_and_sorted (readKeychain "2fa" (asciiBytes "a 6 AAAAAAAA\n")) 0).2.2.2
    _ (by decide)

/-- All bytes produced by the decimal rendering are ASCII digits. -/
theorem natDigitsAux_digits : ∀ (fuel n : Nat) (acc : List Nat),
    (∀ b ∈ acc, 48 ≤ b ∧ b ≤ 57) → ∀ b ∈ natDigitsAux fuel n acc, 48 ≤ b ∧ b ≤ 57 := by
  intro fuel
  induction fuel with
  | zero =>
    intro n acc hacc
    simpa [natDigitsAux] using hacc
  | succ fuel ih =>
    intro n acc hacc
    rw [natDigitsAux]
    split
    · intro b hb
      rcases List.mem_cons.mp hb with rfl | hmem
      · omega
      · exact hacc b hmem
    · apply ih
      intro b hb
      rcases List.mem_cons.mp hb with rfl | hmem
      · omega
      · exact hacc b hmem

/-- A value below `10^k` renders to at most `k` decimal digits. -/
theorem natDigitsAux_length : ∀ (fuel k n : Nat) (acc : List Nat),
    n < 10 ^ k → 1 ≤ k → (natDigitsAux fuel n acc).length ≤ k + acc.length := by
  intro fuel
  induction fuel with
  | zero =>
    intro k n acc _ hk
    rw [natDigitsAux]
    omega
  | succ fuel ih =>
    intro k n acc h hk
    rw [natDigitsAux]
    split
    · simp only [List.length_cons]
      omega
    · rename_i hge
      have hk2 : 2 ≤ k := by
        by_contra hlt
        have hk1 : k = 1 := by omega
        rw [hk1, pow_one] at h
        omega
      obtain ⟨k2, rfl⟩ : ∃ k2, k = k2 + 1 := ⟨k - 1, by omega⟩
      have hdiv : n / 10 < 10 ^ k2 := by
        rw [Nat.div_lt_iff_lt_mul (by norm_num)]
        calc n < 10 ^ (k2 + 1) := h
          _ = 10 ^ k2 * 10 := by ring
      have hih := ih k2 (n / 10) ((48 + n % 10) :: acc) hdiv (by omega)
      simp only [List.length_cons] at hih
      omega

/-- A `uint64` value renders to at most 20 decimal digits. -/
theorem natDecimal_length_le20 (n : Nat) (h : n < 18446744073709551616) :
    (natDecimal n).length ≤ 20 := by
  have h20 : n < 10 ^ 20 := lt_of_lt_of_le h (by norm_num)
  have := natDigitsAux_length (n + 1) 20 n [] h20 (by omega)
  simpa using this

/-- The zero-padded counter rendering of a `uint64` value is exactly
`counterLen` bytes. -/
theorem zeroPad_counter_length (n : Nat) (h : n < 18446744073709551616) :
    (zeroPad counterLen n).length = counterLen := by
  have hle := natDecimal_length_le20 n h
  rw [zeroPad, List.length_append, List.length_replicate]
  simp only [counterLen] at hle ⊢
  omega

/-- Every byte of a zero-padded decimal rendering is an ASCII digit. -/
theorem zeroPad_digits (width n : Nat) : ∀ b ∈ zeroPad width n, 48 ≤ b ∧ b ≤ 57 := by
  intro b hb
  rw [zeroPad] at hb
  rcases List.mem_append.mp hb with hrep | hdig
  · have := List.eq_of_mem_replicate hrep
    omega
  · exact natDigitsAux_digits (n + 1) n [] (by simp) b hdig

/-- An in-range `WriteAt` leaves the file length unchanged. -/
theorem writeAt_length (file b : List Nat) (off : Nat) (h : off + b.length ≤ file.length) :
    (writeAt file off b).length = file.length := by
  rw [writeAt]
  simp only [List.length_append, List.length_take, List.length_replicate, List.length_drop]
  omega

/-- An in-range `WriteAt` leaves the bytes before the offset unchanged. -/
theorem writeAt_take (file b : List Nat) (off : Nat) (h : off ≤ file.length) :
    (writeAt file off b).take off = file.take off := by
  rw [writeAt]
  have hz : off - file.length = 0 := by omega
  rw [hz, List.replicate_zero, List.append_nil, List.append_assoc]
  rw [List.take_left' (by rw [List.length_take]; omega)]

/-- An in-range `WriteAt` leaves the bytes past the written range unchanged. -/
theorem writeAt_drop (file b : List Nat) (off : Nat) (h : off ≤ file.length) :
    (writeAt file off b).drop (off + b.length) = file.drop (off + b.length) := by
  rw [writeAt]
  have hz : off - file.length = 0 := by omega
  rw [hz, List.replicate_zero, List.append_nil]
  rw [List.drop_left' (by rw [List.length_append, List.length_take]; omega)]

/-- Claim C8: whenever `Code` performs its in-place counter rewrite on a loaded
keychain, it writes exactly 20 zero-padded ASCII decimal digit bytes at the
record's counter offset, so the backing file's length is unchanged and every
byte outside the 20-byte counter range — hence the byte offset of every
other record — is untouched. -/
theorem code_write_preserves_layout (file : String) (data : List Nat) (now : Int)
    (name : List Nat) (k : Key) (out newFile : List Nat)
    (hk : mapFind (readKeychain file data).keys name = some k)
    (hoff : k.offset ≠ 0)
    (hcode : code (readKeychain file data) data now name = some (out, newFile)) :
    ∃ n, n < 18446744073709551616 ∧
      newFile = writeAt data k.offset (zeroPad counterLen n) ∧
      (zeroPad counterLen n).length = counterLen ∧
      (∀ b ∈ zeroPad counterLen n, 48 ≤ b ∧ b ≤ 57) ∧
      newFile.length = data.length ∧
      newFile.take k.offset = data.take k.offset ∧
      newFile.drop (k.offset + counterLen) = data.drop (k.offset + counterLen) := by
  rw [code] at hcode
  simp only [hk] at hcode
  rw [if_pos hoff] at hcode
  have hdata : (readKeychain file data).data = data := rfl
  rw [hdata] at hcode
  by_cases hg : data.length < k.offset + counterLen
  · rw [if_pos hg] at hcode
    cases hcode
  · rw [if_neg hg] at hcode
    cases hp : parseUint64 ((data.drop k.offset).take counterLen) with
    | none =>
      simp only [hp] at hcode
      cases hcode
    | some n0 =>
      simp only [hp, Option.some.injEq, Prod.mk.injEq] at hcode
      obtain ⟨-, hnew⟩ := hcode
      subst hnew
      have hlt : (n0 + 1) % 18446744073709551616 < 18446744073709551616 :=
        Nat.mod_lt _ (by norm_num)
      have hlen20 := zeroPad_counter_length _ hlt
      have hrange : k.offset + (zeroPad counterLen ((n0 + 1) % 18446744073709551616)).length ≤
          data.length := by
        rw [hlen20]
        omega
      refine ⟨(n0 + 1) % 18446744073709551616, hlt, rfl, hlen20, zeroPad_digits _ _,
        writeAt_length _ _ _ hrange, writeAt_take _ _ _ (by omega), ?_⟩
      have hd := writeAt_drop data (zeroPad counterLen ((n0 + 1) % 18446744073709551616))
        k.offset (by omega)
      rw [hlen20] at hd
      exact hd

/-- Witness for the layout-preservation theorem at the concrete demo file:
the first counter advance writes `00000000000000000001` at offset 40. -/
theorem code_write_preserves_layout_witness :
    ∃ n, n < 18446744073709551616 ∧
      demoFile1 = writeAt demoFile0 40 (zeroPad counterLen n) ∧
      (zeroPad counterLen n).length = counterLen ∧
      (∀ b ∈ zeroPad counterLen n, 48 ≤ b ∧ b ≤ 57) ∧
      demoFile1.length = demoFile0.length ∧
      demoFile1.take 40 = demoFile0.take 40 ∧
      demoFile1.drop (40 + counterLen) = demoFile0.drop (40 + counterLen) :=
  code_write_preserves_layout "2fa" demoFile0 0 demoName ⟨rfcSecret, 6, 40⟩
    (asciiBytes "287082") demoFile1 (by decide) (by decide) (by decide)

/-- Splitting on a byte never yields an empty list of pieces. -/
theorem splitOnByte_ne_nil (sep : Nat) (l : List Nat) : splitOnByte sep l ≠ [] := by
  cases l with
  | nil => simp [splitOnByte]
  | cons c rest =>
    rw [splitOnByte]
    split
    · simp
    · split <;> simp

/-- The pieces of a byte split account for every byte: the piece lengths plus
the separators (one fewer than the pieces) sum to the input length. -/
theorem splitOnByte_sum (sep : Nat) : ∀ l : List Nat,
    ((splitOnByte sep l).map List.length).sum + (splitOnByte sep l).length = l.length + 1 := by
  intro l
  induction l with
  | nil => simp [splitOnByte]
  | cons c rest ih =>
    rw [splitOnByte]
    split
    · simp only [List.map_cons, List.sum_cons, List.length_cons, List.length_nil]
      omega
    · cases hsp : splitOnByte sep rest with
      | nil => exact absurd hsp (splitOnByte_ne_nil sep rest)
      | cons p ps =>
        rw [hsp] at ih
        simp only [hsp, List.map_cons, List.sum_cons, List.length_cons] at ih ⊢
        omega

/-- A list of length four is literally a four-element list. -/
theorem listLen4 (L : List (List Nat)) (h : L.length = 4) : ∃ a b c d, L = [a, b, c, d] := by
  rcases L with _ | ⟨a, L⟩
  · simp at h
  rcases L with _ | ⟨b, L⟩
  · simp at h
  rcases L with _ | ⟨c, L⟩
  · simp at h
  rcases L with _ | ⟨d, L⟩
  · simp at h
  rcases L with _ | ⟨e, L⟩
  · exact ⟨a, b, c, d, rfl⟩
  · simp only [List.length_cons] at h
    omega

/-- The field-count view of a valid record line fixes its counter offset:
3 fields give the zero offset of the `Key` zero value, 4 fields give a
strictly positive offset (the line carries at least the 24 bytes of
separators, digits field and counter ahead of the counter field). -/
theorem lineEntry_offset_cases (off : Nat) (line name : List Nat) (k : Key)
    (hlen : line.length ≤ off) (h : lineEntry off line = some (name, k)) :
    ((lineFields line).length = 3 ∨ (lineFields line).length = 4) ∧
    ((lineFields line).length = 3 → k.offset = 0) ∧
    ((lineFields line).length = 4 → 0 < k.offset) ∧
    (k.offset ≠ 0 ↔ (lineFields line).length = 4) := by
  obtain ⟨hlen34, h1len, hd2, hd3, hdec, h4⟩ := (lineEntry_isSome_iff off line).mp ⟨(name, k), h⟩
  rw [lineEntry, if_pos ⟨by rcases hlen34 with hh | hh <;> omega, h1len, hd2, hd3⟩] at h
  obtain ⟨raw, hr⟩ := Option.isSome_iff_exists.mp hdec
  simp only [hr] at h
  rcases hlen34 with hl3 | hl4
  · rw [if_pos hl3] at h
    simp only [Option.some.injEq, Prod.mk.injEq] at h
    obtain ⟨-, hkey⟩ := h
    have hko : k.offset = 0 := by rw [← hkey]
    exact ⟨Or.inl hl3, fun _ => hko, fun h4f => by omega,
      ⟨fun hne => absurd hko hne, fun h4f => by omega⟩⟩
  · rw [if_neg (by omega)] at h
    obtain ⟨h20, hps⟩ := h4 hl4
    rw [if_pos ⟨hl4, show ((lineFields line).getD 3 []).length = counterLen from h20⟩] at h
    obtain ⟨n0, hn⟩ := Option.isSome_iff_exists.mp hps
    simp only [hn, Option.some.injEq, Prod.mk.injEq] at h
    obtain ⟨-, hkey⟩ := h
    have hko : k.offset = off - counterLen - (if line.getLast? = some 10 then 1 else 0) := by
      rw [← hkey]
    obtain ⟨f0, f1, f2, f3, hf⟩ := listLen4 (lineFields line) hl4
    have hsum := splitOnByte_sum 32 (trimSuffixNL line)
    have hlf : splitOnByte 32 (trimSuffixNL line) = lineFields line := rfl
    rw [hlf, hf] at hsum
    simp only [List.map_cons, List.map_nil, List.sum_cons, List.sum_nil, List.length_cons,
      List.length_nil] at hsum
    have hf1 : f1.length = 1 := by
      rw [hf] at h1len
      simpa using h1len
    have hf3 : f3.length = 20 := by
      rw [hf] at h20
      simpa using h20
    have htrim : 24 ≤ (trimSuffixNL line).length := by omega
    have hnlrel : (trimSuffixNL line).length + (if line.getLast? = some 10 then 1 else 0) =
        line.length := by
      by_cases hnl : line.getLast? = some 10
      · rw [trimSuffixNL, if_pos hnl, if_pos hnl, List.length_dropLast]
        have hne : line ≠ [] := by
          intro he
          rw [he] at hnl
          simp at hnl
        have hpos : 1 ≤ line.length := List.length_pos.mpr hne
        omega
      · rw [trimSuffixNL, if_neg hnl, if_neg hnl]
        omega
    have hpos : 0 < k.offset := by
      rw [hko]
      simp only [counterLen]
      by_cases hnl : line.getLast? = some 10
      · rw [if_pos hnl] at hnlrel ⊢
        omega
      · rw [if_neg hnl] at hnlrel ⊢
        omega
    exact ⟨Or.inr hl4, fun h3f => by omega, fun _ => hpos, ⟨fun _ => hl4, fun _ => by omega⟩⟩

/-- Membership after a Go map assignment: an entry is either an old one or
the inserted pair. -/
theorem mapInsert_mem (m : List (List Nat × Key)) (name : List Nat) (k : Key) :
    ∀ p ∈ mapInsert m name k, p ∈ m ∨ p = (name, k) := by
  intro p hp
  rw [mapInsert] at hp
  split at hp
  · obtain ⟨q, hq, hpe⟩ := List.mem_map.mp hp
    by_cases hqn : (q.1 == name) = true
    · rw [if_pos hqn] at hpe
      right
      exact hpe.symm
    · rw [if_neg hqn] at hpe
      left
      exact hpe ▸ hq
  · rcases List.mem_append.mp hp with hmem | hmem
    · exact Or.inl hmem
    · right
      simpa using hmem

/-- The step `loadStep` always advances the offset by the line length. -/
theorem loadStep_offset (file : String) (st : LoadState) (line : List Nat) :
    (loadStep file st line).offset = st.offset + line.length := by
  rw [loadStep]
  split
  · rfl
  · split <;> rfl

/-- Fold invariant of the load loop: every index entry either was already
present or originates from `lineEntry` on one of the processed lines, at an
offset at least the line's length. -/
theorem load_keys_origin (file : String) (P : List Nat × Key → Prop) :
    ∀ (lines : List (List Nat)) (st : LoadState),
      (∀ p ∈ st.keys, P p) →
      (∀ line ∈ lines, ∀ off name k, line.length ≤ off →
        lineEntry off line = some (name, k) → P (name, k)) →
      ∀ p ∈ (lines.foldl (loadStep file) st).keys, P p := by
  intro lines
  induction lines with
  | nil =>
    intro st hst _ p hp
    exact hst p hp
  | cons line rest ih =>
    intro st hst hline p hp
    rw [List.foldl_cons] at hp
    refine ih (loadStep file st line) ?_ (fun l hl => hline l (List.mem_cons_of_mem _ hl)) p hp
    intro q hq
    rw [loadStep] at hq
    split at hq
    · exact hst q hq
    · split at hq
      case h_1 nm nk hentry =>
        rcases mapInsert_mem _ _ _ q hq with hold | hnew
        · exact hst q hold
        · rw [hnew]
          exact hline line (List.mem_cons_self _ _) (st.offset + line.length) nm nk
            (Nat.le_add_left _ _) hentry
      case h_2 => exact hst q hq

/-- A successful `mapFind` exhibits the entry in the index. -/
theorem mem_of_mapFind (m : List (List Nat × Key)) (name : List Nat) (k : Key)
    (h : mapFind m name = some k) : (name, k) ∈ m := by
  rw [mapFind] at h
  cases hf : m.find? (fun p => p.1 == name) with
  | none =>
    rw [hf] at h
    cases h
  | some p =>
    rw [hf] at h
    simp only [Option.map_some', Option.some.injEq] at h
    have hpred := List.find?_some hf
    have hmem := List.mem_of_find?_eq_some hf
    have h1 : p.1 = name := beq_iff_eq.mp hpred
    have hpe : p = (name, k) := by
      cases p
      simp only at h1 h
      rw [h1, h]
    rw [← hpe]
    exact hmem

/-- Claim C10: a valid 3-field line always yields offset 0 and a valid 4-field
line a strictly positive counter offset, so `offset ≠ 0` — the test used by
`Code` and `ShowAll` — identifies exactly the counter-based records; and
every entry of a loaded index originates from such a line of the file. -/
theorem offset_flags_counter_records :
    (∀ (off : Nat) (line name : List Nat) (k : Key), line.length ≤ off →
      lineEntry off line = some (name, k) →
        ((lineFields line).length = 3 ∨ (lineFields line).length = 4) ∧
        ((lineFields line).length = 3 → k.offset = 0) ∧
        ((lineFields line).length = 4 → 0 < k.offset) ∧
        (k.offset ≠ 0 ↔ (lineFields line).length = 4)) ∧
    ∀ (file : String) (data name : List Nat) (k : Key),
      mapFind (readKeychain file data).keys name = some k →
        ∃ line off, line ∈ splitAfterNL data ∧ line.length ≤ off ∧
          lineEntry off line = some (name, k) := by
  constructor
  · exact fun off line name k hlen h => lineEntry_offset_cases off line name k hlen h
  · intro file data name k hfind
    have hmem : (name, k) ∈ (readKeychain file data).keys := mem_of_mapFind _ _ _ hfind
    have hkeys : (readKeychain file data).keys =
        ((splitAfterNL data).foldl (loadStep file) ⟨[], [], 0, 1⟩).keys := rfl
    rw [hkeys] at hmem
    exact load_keys_origin file
      (fun p => ∃ line off, line ∈ splitAfterNL data ∧ line.length ≤ off ∧
        lineEntry off line = some (p.1, p.2))
      (splitAfterNL data) ⟨[], [], 0, 1⟩
      (fun p hp => absurd hp (List.not_mem_nil p))
      (fun line hl off nm kk hlo hent => ⟨line, off, hl, hlo, hent⟩)
      (name, k) hmem

/-- Witness for the offset-flag theorem at the concrete demo line: the
4-field record line of `demoFile0` yields a positive offset. -/
theorem offset_flags_counter_records_witness :
    ((lineFields demoFile0).length = 3 ∨ (lineFields demoFile0).length = 4) ∧
    ((lineFields demoFile0).length = 3 → (⟨rfcSecret, 6, 40⟩ : Key).offset = 0) ∧
    ((lineFields demoFile0).length = 4 → 0 < (⟨rfcSecret, 6, 40⟩ : Key).offset) ∧
    ((⟨rfcSecret, 6, 40⟩ : Key).offset ≠ 0 ↔ (lineFields demoFile0).length = 4) :=
  offset_flags_counter_records.1 61 demoFile0 demoName ⟨rfcSecret, 6, 40⟩ (by decide) (by decide)

/-- Claim C4 as stated is false: at the after-epoch timestamp of `2^64`
nanoseconds (year 2554, representable in Go's `time.Time`), `uint64(t.UnixNano())`
wraps to 0, so `totp` returns the counter-0 code while
`floor(now_in_seconds/30)` is 614891469, whose code differs. -/
theorem totp_unixnano_wrap_counterexample :
    ¬ ∀ (key : List Nat) (digits : Int) (ns : Int), 0 ≤ ns →
        totp key ns digits = hotp key (ns.toNat / 1000000000 / 30) digits := by
  intro h
  have h2 := h rfcSecret 6 18446744073709551616 (by norm_num)
  revert h2
  decide

end TwoFA
